import Mathlib

/-!
Verification of the Wartungsbot date-proposal core (`wartungsbot.py`).

The development shallowly embeds the decision logic of the script:

* `namen_auslesen` — roster/acceptance parsing (lines 104-130), modulo the
  surrounding page slicing: the function here receives the list of lines that
  the Python code obtains from `text[...].splitlines()`, and performs the same
  per-line extraction, alias mapping, filtering and sorting.
* `zusagestatus` — conversion of the availability-service response into
  `Status` records (lines 318-358); the network call itself is represented by
  an `Except` argument: `Except.error` is the `requests`/JSON exception path.
* `terminideen` / `terminidee` — the per-campaign forward scan (lines
  360-410).  Dates are proleptic-Gregorian ordinals (`datetime.date.toordinal`),
  so day 1 is a Monday and `weekday()` is `(n + 6) % 7`; the `while` loop over
  `datum ≤ enddatum` is phrased structurally with the remaining day count
  `rest = enddatum + 1 - datum` as fuel, which is exactly the number of loop
  entries left.
* `tabelle_formatieren` (lines 412-440) and the publication step of
  `terminideen_posten` (lines 447, 460-468), including the Python `re.sub` on
  the pattern `(===Terminideen===)(.*?)(</div>)` with replacement
  `\1\n + wiki`, and the `sorted(..., key=lambda x: x['Datum'])` call whose
  keys may be `None`.

Strings are compared the way CPython compares `str` (lexicographically by
code point); `zLe`/`strLe` implement that order and `sortiere` is a stable
insertion sort, which agrees with CPython's stable `sorted`.
-/

namespace Wartungsbot

/-- Code-point lexicographic order on character lists, i.e. CPython's `str`
comparison after `String.toList`. -/
def zLe : List Char → List Char → Bool
  | [], _ => true
  | _ :: _, [] => false
  | a :: as, b :: bs =>
    if a.toNat < b.toNat then true
    else if b.toNat < a.toNat then false
    else zLe as bs

/-- CPython's `s1 <= s2` on `str`. -/
def strLe (a b : String) : Bool := zLe a.toList b.toList

theorem zLe_total : ∀ a b, zLe a b = true ∨ zLe b a = true := by
  intro a
  induction a with
  | nil => intro b; left; rfl
  | cons x xs ih =>
    intro b
    cases b with
    | nil => right; rfl
    | cons y ys =>
      simp only [zLe]
      by_cases h1 : x.toNat < y.toNat
      · left
        simp [h1]
      · by_cases h2 : y.toNat < x.toNat
        · right
          simp [h1, h2]
        · have h3 : ¬ y.toNat < x.toNat := h2
          rcases ih ys with h | h
          · left
            simp [h1, h2, h]
          · right
            simp [h1, h2, h3, h]

theorem zLe_trans : ∀ a b c, zLe a b = true → zLe b c = true → zLe a c = true := by
  intro a
  induction a with
  | nil => intro b c _ _; rfl
  | cons x xs ih =>
    intro b c hab hbc
    cases b with
    | nil => simp [zLe] at hab
    | cons y ys =>
      cases c with
      | nil => simp [zLe] at hbc
      | cons z zs =>
        simp only [zLe] at hab hbc ⊢
        by_cases hxy : x.toNat < y.toNat
        · by_cases hyz : y.toNat < z.toNat
          · have : x.toNat < z.toNat := by omega
            simp [this]
          · by_cases hzy : z.toNat < y.toNat
            · simp [hyz, hzy] at hbc
            · have : x.toNat < z.toNat := by omega
              simp [this]
        · by_cases hyx : y.toNat < x.toNat
          · simp [hxy, hyx] at hab
          · by_cases hyz : y.toNat < z.toNat
            · have : x.toNat < z.toNat := by omega
              simp [this]
            · by_cases hzy : z.toNat < y.toNat
              · simp [hyz, hzy] at hbc
              · have h1 : ¬ x.toNat < z.toNat := by omega
                have h2 : ¬ z.toNat < x.toNat := by omega
                rw [if_neg hxy, if_neg hyx] at hab
                rw [if_neg hyz, if_neg hzy] at hbc
                rw [if_neg h1, if_neg h2]
                exact ih ys zs hab hbc

/-- Stable insertion of a string into a list (auxiliary step of `sortiere`). -/
def fuegeEin (x : String) : List String → List String
  | [] => [x]
  | y :: ys => if strLe x y then x :: y :: ys else y :: fuegeEin x ys

/-- Stable sort by code-point order: the meaning of CPython's `sorted` on a
list of `str` (CPython's sort is stable, and so is insertion sort, so the two
agree element for element). -/
def sortiere : List String → List String
  | [] => []
  | x :: xs => fuegeEin x (sortiere xs)

theorem mem_fuegeEin (b x : String) : ∀ l, b ∈ fuegeEin x l ↔ b = x ∨ b ∈ l := by
  intro l
  induction l with
  | nil => simp [fuegeEin]
  | cons y ys ih =>
    simp only [fuegeEin]
    by_cases hxy : strLe x y = true
    · rw [if_pos hxy]
      exact List.mem_cons
    · rw [if_neg hxy]
      simp only [List.mem_cons, ih]
      tauto

theorem sorted_fuegeEin (x : String) (l : List String)
    (h : List.Sorted (fun a b => strLe a b = true) l) :
    List.Sorted (fun a b => strLe a b = true) (fuegeEin x l) := by
  induction l with
  | nil => simp [fuegeEin, List.Sorted]
  | cons y ys ih =>
    simp only [fuegeEin]
    by_cases hxy : strLe x y = true
    · simp only [if_pos hxy]
      refine List.sorted_cons.mpr ⟨?_, h⟩
      intro b hb
      rcases List.mem_cons.mp hb with rfl | hb
      · exact hxy
      · have hyb : strLe y b = true := (List.sorted_cons.mp h).1 b hb
        exact zLe_trans _ _ _ hxy hyb
    · simp only [if_neg hxy]
      have hsy := (List.sorted_cons.mp h).2
      refine List.sorted_cons.mpr ⟨?_, ih hsy⟩
      intro b hb
      rcases (mem_fuegeEin b x ys).mp hb with rfl | hb
      · rcases zLe_total b.toList y.toList with h1 | h1
        · exact absurd h1 hxy
        · exact h1
      · exact (List.sorted_cons.mp h).1 b hb

theorem sorted_sortiere (l : List String) :
    List.Sorted (fun a b => strLe a b = true) (sortiere l) := by
  induction l with
  | nil => simp [sortiere]
  | cons x xs ih => exact sorted_fuegeEin x _ ih

/-- Python `str.strip()` on a list of characters. -/
def streifen (l : List Char) : List Char :=
  ((l.dropWhile Char.isWhitespace).reverse.dropWhile Char.isWhitespace).reverse

/-- Extraction of one name from one line of the player / acceptance block
(`namen_auslesen`, lines 117-121): with a colon the line yields the slice
`zeile[zeile.find(chr 58) + 1 : zeile.rfind(chr 124)]` (where Python
`rfind` gives `-1`, hence slice end `len - 1`, when the bar is absent),
otherwise asterisks are removed and the line is stripped. -/
def nameAusZeile (zeile : List Char) : List Char :=
  if zeile.contains ':' then
    let a := List.indexOf ':' zeile + 1
    let e := if zeile.contains '|' then
               zeile.length - 1 - List.indexOf '|' zeile.reverse
             else zeile.length - 1
    (zeile.take e).drop a
  else
    streifen (zeile.filter (fun c => c ≠ '*'))

/-- Lines 104-130 of the source: per-line name extraction, the alias mapping
that replaces a `Tris` entry by an appended `Tristan`, dropping of empty
entries, and the final `sorted(...)`.  The argument is the line list that the
Python code obtains from the page text between the section markers. -/
def namen_auslesen (zeilen : List (List Char)) : List String :=
  let ergebnis := zeilen.map (fun z => String.mk (nameAusZeile z))
  let gemappt := if ergebnis.contains "Tris" then ergebnis.erase "Tris" ++ ["Tristan"]
                 else ergebnis
  sortiere (gemappt.filter (fun s => s ≠ ""))

/-- The `Status` dataclass (lines 62-70): acceptance status of one date.
`datum` is the proleptic-Gregorian ordinal of the date. -/
structure Status where
  datum : Nat := 0
  zusagen : List String := []
  absagen : List String := []
  unsicher : List String := []
deriving DecidableEq

/-- The `Kampagne` dataclass (lines 37-43). -/
structure Kampagne where
  name : String := ""
  spieler : List String := []
deriving DecidableEq

/-- The fields of the `Termin` dataclass (lines 46-59) that the scheduling
and rendering code reads; `kampagne` is the campaign name. -/
structure Termin where
  kampagne : String := ""
  datum : Nat := 0
  online : String := ""
  status : String := ""
  link : String := ""
deriving DecidableEq

/-- One entry of the result list of `terminideen` (line 409):
`{'Kampagne': ..., 'Datum': ..., 'Fehlen': ...}`. -/
structure Idee where
  kampagne : String := ""
  datum : Option Nat := none
  fehlen : List String := []
deriving DecidableEq

/-- `datetime.date.weekday()` for an ordinal (Monday = 0; ordinal 1, i.e.
0001-01-01, is a Monday in the proleptic Gregorian calendar). -/
def wochentag (d : Nat) : Nat := (d + 6) % 7

/-- `[status for status in statusliste if status.datum == datum][0]`, guarded
by the preceding membership test (lines 382-385). -/
def statusFuer (statusliste : List Status) (datum : Nat) : Option Status :=
  statusliste.find? (fun st => st.datum == datum)

/-- The membership test of line 382: the table has an entry for the date. -/
def hatEintrag (statusliste : List Status) (datum : Nat) : Bool :=
  (statusFuer statusliste datum).isSome

/-- Line 386: `set(status.absagen).intersection(set(kampagne.spieler))` is
non-empty, i.e. some roster participant declined. -/
def absagenKonflikt (status : Status) (spieler : List String) : Bool :=
  status.absagen.any (fun a => spieler.contains a)

/-- Line 390: the date is already taken (`datum in verboten`) or falls on
Monday-Thursday while the campaign is not played online. -/
def disqualifiziert (verboten : List Nat) (online : String) (datum : Nat) : Bool :=
  verboten.contains datum || (decide (wochentag datum ≤ 3) && online == "Nein")

/-- Line 394: every roster participant is in the accepted set. -/
def vollzaehlig (status : Status) (spieler : List String) : Bool :=
  spieler.all (fun s => status.zusagen.contains s)

/-- Line 374: the blackout dates, i.e. dates of appointments whose status is
one of the locked-in states. -/
def verbotene_termine (termine : List Termin) : List Nat :=
  (termine.filter (fun t => t.status == "Angesetzt" || t.status == "Bestätigt")).map
    (fun t => t.datum)

/-- A date that the scan, on reaching it, neither skips nor stops at the gap:
it has a table entry, no roster participant declined, and it is neither a
blackout date nor weekday-blocked.  This is the eligibility notion of the
per-date checks in lines 382-392. -/
def zulaessig (statusliste : List Status) (verboten : List Nat) (spieler : List String)
    (online : String) (datum : Nat) : Bool :=
  match statusFuer statusliste datum with
  | none => false
  | some st => !absagenKonflikt st spieler && !disqualifiziert verboten online datum

/-- The date carries a full match: eligible and every participant accepted. -/
def vollMatchAn (statusliste : List Status) (verboten : List Nat) (spieler : List String)
    (online : String) (datum : Nat) : Bool :=
  zulaessig statusliste verboten spieler online datum &&
    (match statusFuer statusliste datum with
     | none => false
     | some st => vollzaehlig st spieler)

/-- The `while datum <= enddatum` loop of `terminideen` (lines 380-401).
`rest` is the number of loop entries still possible, i.e.
`enddatum + 1 - datum`; `rest = 0` is the loop guard failing. -/
def terminSuche (statusliste : List Status) (verboten : List Nat) (spieler : List String)
    (online : String) : Nat → Nat → Option Nat → Option Nat
  | _, 0, spieldatum => spieldatum
  | datum, rest + 1, spieldatum =>
    match statusFuer statusliste datum with
    | none => spieldatum
    | some status =>
      if absagenKonflikt status spieler then
        terminSuche statusliste verboten spieler online (datum + 1) rest spieldatum
      else if disqualifiziert verboten online datum then
        terminSuche statusliste verboten spieler online (datum + 1) rest spieldatum
      else if vollzaehlig status spieler then
        some datum
      else
        match spieldatum with
        | none => terminSuche statusliste verboten spieler online (datum + 1) rest (some datum)
        | some s => terminSuche statusliste verboten spieler online (datum + 1) rest (some s)

/-- The per-campaign body of `terminideen` (lines 378-409): scan the closed
range `[heute, heute + delta]` and compute the proposed date together with
the participants whose acceptance is missing on it.  The second branch of the
inner match (`none` for a returned date) is unreachable, because the scan
only ever returns dates that have a table entry (`terminSuche_some`). -/
def terminidee (statusliste : List Status) (verboten : List Nat) (spieler : List String)
    (online : String) (heute delta : Nat) : Option Nat × List String :=
  match terminSuche statusliste verboten spieler online heute (delta + 1) none with
  | none => (none, [])
  | some spieldatum =>
    match statusFuer statusliste spieldatum with
    | some status =>
      (some spieldatum, spieler.filter (fun s => !status.zusagen.contains s))
    | none => (some spieldatum, [])

/-- `terminideen` (lines 360-410) over all campaigns: the test campaign is
filtered out (line 376) and each remaining campaign is scanned independently;
the string component of each pair is the campaign's `online` flag read off
its appointment (line 377). -/
def terminideen (statusliste : List Status) (verboten : List Nat)
    (kampagnen : List (Kampagne × String)) (heute delta : Nat) : List Idee :=
  (kampagnen.filter (fun k => k.1.name ≠ "Testkampagne")).map
    (fun k =>
      let r := terminidee statusliste verboten k.1.spieler k.2 heute delta
      { kampagne := k.1.name, datum := r.1, fehlen := r.2 })

/-- The per-date `content` object of the availability service response. -/
structure RohInhalt where
  accept : List String := []
  decline : List String := []
  uncertain : List String := []
deriving DecidableEq

/-- One entry of the `result` array of the availability service response;
`inhalt = none` is a falsy `content` (no responses recorded for the date). -/
structure RohErgebnis where
  datum : Nat := 0
  inhalt : Option RohInhalt := none
deriving DecidableEq

/-- `zusagestatus` (lines 318-358).  The network call is abstracted into the
`antwort` argument: `Except.error` is the exception path of lines 337-341,
which logs and returns the empty list; `Except.ok` is a parsed JSON `result`
array, converted date by date, with an empty `Status` for falsy `content`
(lines 346-348) and sorted accept/decline/uncertain lists otherwise. -/
def zusagestatus (antwort : Except String (List RohErgebnis)) : List Status :=
  match antwort with
  | Except.error _ => []
  | Except.ok ergebnisse =>
    ergebnisse.map (fun e =>
      match e.inhalt with
      | none => { datum := e.datum }
      | some inhalt =>
        { datum := e.datum
          zusagen := sortiere inhalt.accept
          absagen := sortiere inhalt.decline
          unsicher := sortiere inhalt.uncertain })

/-- The classification of lines 449-454: tier of one scheduling result. -/
def vorschlag (idee : Idee) : String :=
  match idee.datum with
  | some _ => if idee.fehlen.isEmpty then "Termin möglich!" else "Termin eventuell möglich."
  | none => "kein Termin möglich."

/-- Stable insertion by the key `x.datum` used on line 447 (`None` keys are
handled by the caller, `posten_sortierung`). -/
def fuegeEinIdee (x : Idee) : List Idee → List Idee
  | [] => [x]
  | y :: ys => if x.datum.getD 0 ≤ y.datum.getD 0 then x :: y :: ys else y :: fuegeEinIdee x ys

/-- Stable sort of ideas by date key. -/
def sortiereIdeen : List Idee → List Idee
  | [] => []
  | x :: xs => fuegeEinIdee x (sortiereIdeen xs)

/-- Line 447: `sorted(self.terminideen(delta), key=lambda x: x['Datum'])`.
CPython raises `TypeError` as soon as a comparison involves a `None` key,
and in any comparison sort of two or more elements every element takes part
in at least one comparison; a comparison involving a `None` key raises no
matter what the other side is.  Hence the call raises exactly when the list
has at least two entries and some entry has `Datum = None`; otherwise it
returns the stable sort by date. -/
def posten_sortierung (ideen : List Idee) : Except String (List Idee) :=
  if 2 ≤ ideen.length && ideen.any (fun i => i.datum.isNone) then
    Except.error "TypeError: unorderable NoneType and date"
  else
    Except.ok (sortiereIdeen ideen)

/-- The column headers of line 418. -/
def kopfzeilen : List String := ["Kampagne", "Tag", "Datum", "Fehlende Zusagen", "Terminvorschlag?"]

/-- The column widths of line 419. -/
def spaltenbreiten : List String := ["12em", "8em", "10em", "25em", "12em"]

/-- The colour dictionary of lines 421-423; a key outside the dictionary is a
Python `KeyError`. -/
def farbe (s : String) : Except String String :=
  if s = "Termin möglich!" then Except.ok "#CCFF66"
  else if s = "Termin eventuell möglich." then Except.ok "#FFFF66"
  else if s = "kein Termin möglich." then Except.ok "#FA5858"
  else Except.error "KeyError"

/-- Line 436: `[termin.link for termin in self.termine if termin.kampagne.name == spalte][0]`;
an empty list is a Python `IndexError`. -/
def linkFuer (termine : List Termin) (name : String) : Except String String :=
  match termine.find? (fun t => t.kampagne == name) with
  | some t => Except.ok t.link
  | none => Except.error "IndexError"

/-- The cell style prefix of line 432. -/
def stilBasis : String :=
  "\n|style=\"spacing-bottom: 0px; vertical-align: middle; border-bottom: 1pt lightgray solid;"

/-- One cell of the rendered table (lines 431-438): style, optional colour
for the suggestion column, optional link wrapping for the campaign column. -/
def zelleFormatieren (termine : List Termin) (i : Nat) (spalte : String) :
    Except String String := do
  let kopf ← match kopfzeilen[i]? with
    | some k => Except.ok k
    | none => Except.error "IndexError"
  let stil ← if kopf = "Terminvorschlag?" then do
      let f ← farbe spalte
      pure (stilBasis ++ "color:#000000; background-color:" ++ f)
    else pure stilBasis
  let inhalt ← if kopf = "Kampagne" then do
      let link ← linkFuer termine spalte
      pure ("[[" ++ link ++ "|" ++ spalte ++ "]]")
    else pure spalte
  pure (stil ++ "\"|" ++ inhalt)

/-- The fixed opening of the rendered table plus the header row
(lines 424-428). -/
def kopfteil : String :=
  (kopfzeilen.zip spaltenbreiten).foldl
    (fun erg p =>
      erg ++ "\n!align=\"left\" style=\"border-bottom: 2pt darkred solid; width:" ++ p.2
        ++ "\"|" ++ p.1)
    ("<div style=\"float:left; float:left; background:none; font-size: 100%;\">\n\x7b| cellspacing=\"0\" cellpadding=\"5\" style=\"border-collapse:collapse\" class=\"sortable\"")

/-- `tabelle_formatieren` (lines 412-440): renders the suggestion table in
wiki markup.  A missing colour key or campaign link is the corresponding
Python exception. -/
def tabelle_formatieren (termine : List Termin) (tabelle : List (List String)) :
    Except String String := do
  let erg ← tabelle.foldlM
    (fun erg zeile =>
      zeile.enum.foldlM
        (fun e2 p => do
          let z ← zelleFormatieren termine p.1 p.2
          pure (e2 ++ z))
        (erg ++ "\n|-"))
    kopfteil
  pure (erg ++ "\n|-\n|\x7d\n</div>")

/-- Prefix test on character lists. -/
def istPraefix : List Char → List Char → Bool
  | [], _ => true
  | _ :: _, [] => false
  | a :: p, b :: s => a == b && istPraefix p s

/-- Python `str.find` for a substring: index of the leftmost occurrence. -/
def findSub (pat : List Char) : List Char → Option Nat
  | [] => if pat.isEmpty then some 0 else none
  | c :: s => if istPraefix pat (c :: s) then some 0 else (findSub pat s).map (· + 1)

theorem istPraefix_laenge : ∀ p s : List Char, istPraefix p s = true → p.length ≤ s.length := by
  intro p
  induction p with
  | nil => intro s _; simp
  | cons a p ih =>
    intro s h
    cases s with
    | nil => simp [istPraefix] at h
    | cons b s =>
      simp only [istPraefix, Bool.and_eq_true] at h
      have := ih s h.2
      simp only [List.length_cons]
      omega

theorem istPraefix_append (p : List Char) :
    ∀ x y : List Char, p.length ≤ x.length → istPraefix p (x ++ y) = istPraefix p x := by
  induction p with
  | nil => intro x y _; rfl
  | cons a p ih =>
    intro x y h
    cases x with
    | nil => simp at h
    | cons b x =>
      simp only [List.cons_append, istPraefix, List.append_eq]
      rw [ih x y (by simp at h; omega)]

theorem istPraefix_self_append : ∀ p t : List Char, istPraefix p (p ++ t) = true := by
  intro p
  induction p with
  | nil => intro t; rfl
  | cons a p ih =>
    intro t
    simp only [List.cons_append, istPraefix, Bool.and_eq_true, beq_self_eq_true, true_and]
    exact ih t

theorem findSub_some_praefix :
    ∀ (s : List Char) (pat : List Char) (i : Nat),
      findSub pat s = some i → istPraefix pat (s.drop i) = true := by
  intro s
  induction s with
  | nil =>
    intro pat i h
    simp only [findSub] at h
    by_cases hp : pat.isEmpty
    · rw [if_pos hp] at h
      cases h
      cases pat with
      | nil => rfl
      | cons a p => simp [List.isEmpty] at hp
    · rw [if_neg hp] at h
      cases h
  | cons c s ih =>
    intro pat i h
    simp only [findSub] at h
    by_cases hp : istPraefix pat (c :: s) = true
    · rw [if_pos hp] at h
      cases h
      exact hp
    · rw [if_neg hp] at h
      rcases Option.map_eq_some'.mp h with ⟨i0, h0, rfl⟩
      simpa using ih pat i0 h0

theorem findSub_some_min :
    ∀ (s : List Char) (pat : List Char) (i : Nat),
      findSub pat s = some i → ∀ q, q < i → istPraefix pat (s.drop q) = false := by
  intro s
  induction s with
  | nil =>
    intro pat i h q hq
    simp only [findSub] at h
    by_cases hp : pat.isEmpty
    · rw [if_pos hp] at h
      cases h
      omega
    · rw [if_neg hp] at h
      cases h
  | cons c s ih =>
    intro pat i h q hq
    simp only [findSub] at h
    by_cases hp : istPraefix pat (c :: s) = true
    · rw [if_pos hp] at h
      cases h
      omega
    · rw [if_neg hp] at h
      rcases Option.map_eq_some'.mp h with ⟨i0, h0, rfl⟩
      cases q with
      | zero =>
        simpa using Bool.eq_false_iff.mpr (fun hc => hp hc)
      | succ q0 =>
        have : q0 < i0 := by omega
        simpa using ih pat i0 h0 q0 this

theorem findSub_of_praefix :
    ∀ (s : List Char) (pat : List Char) (q : Nat),
      istPraefix pat (s.drop q) = true → ∃ i, findSub pat s = some i ∧ i ≤ q := by
  intro s
  induction s with
  | nil =>
    intro pat q h
    simp only [List.drop_nil] at h
    have hp : pat = [] := by
      cases pat with
      | nil => rfl
      | cons a p => simp [istPraefix] at h
    subst hp
    exact ⟨0, rfl, Nat.zero_le q⟩
  | cons c s ih =>
    intro pat q h
    by_cases hp : istPraefix pat (c :: s) = true
    · exact ⟨0, by simp [findSub, hp], Nat.zero_le q⟩
    · cases q with
      | zero => exact absurd h hp
      | succ q0 =>
        simp only [List.drop_succ_cons] at h
        rcases ih pat q0 h with ⟨i0, h0, hle⟩
        refine ⟨i0 + 1, ?_, by omega⟩
        simp [findSub, hp, h0]

theorem findSub_eq_of (s pat : List Char) (q : Nat)
    (h1 : istPraefix pat (s.drop q) = true)
    (h2 : ∀ r, r < q → istPraefix pat (s.drop r) = false) :
    findSub pat s = some q := by
  rcases findSub_of_praefix s pat q h1 with ⟨i, hi, hle⟩
  rcases Nat.lt_or_ge i q with hlt | hge
  · have := findSub_some_praefix s pat i hi
    rw [h2 i hlt] at this
    cases this
  · have : i = q := by omega
    rw [this] at hi
    exact hi

theorem findSub_le_laenge :
    ∀ (s : List Char) (pat : List Char) (i : Nat), findSub pat s = some i → i ≤ s.length := by
  intro s
  induction s with
  | nil =>
    intro pat i h
    simp only [findSub] at h
    by_cases hp : pat.isEmpty
    · rw [if_pos hp] at h
      cases h
      simp
    · rw [if_neg hp] at h
      cases h
  | cons c s ih =>
    intro pat i h
    simp only [findSub] at h
    by_cases hp : istPraefix pat (c :: s) = true
    · rw [if_pos hp] at h
      cases h
      simp
    · rw [if_neg hp] at h
      rcases Option.map_eq_some'.mp h with ⟨i0, h0, rfl⟩
      have := ih pat i0 h0
      simp only [List.length_cons]
      omega

theorem findSub_laenge (s pat : List Char) (i : Nat) (h : findSub pat s = some i) :
    i + pat.length ≤ s.length := by
  have h1 := findSub_some_praefix s pat i h
  have h2 := istPraefix_laenge pat _ h1
  have h3 := findSub_le_laenge s pat i h
  rw [List.length_drop] at h2
  omega

/-- The section heading literal of the `re.sub` pattern in line 462. -/
def marker : List Char := "===Terminideen===".toList

/-- The closing literal of the `re.sub` pattern in line 462. -/
def divEnde : List Char := "</div>".toList

/-- The replacement text of line 462: the kept group 1 (`\1`), a newline,
and the rendered table. -/
def ersatz (wiki : List Char) : List Char := marker ++ '\n' :: wiki

/-- `re.sub(r'(===Terminideen===)(.*?)(</div>)', r'\1\n' + wiki, seite, flags=re.S)`
(line 462).  A match is the leftmost heading occurrence followed (lazily,
across newlines) by the nearest `</div>`; it is replaced by `ersatz wiki`, and
scanning resumes after the consumed `</div>`.  With no heading, or a heading
with no `</div>` anywhere after it, nothing matches and the page is returned
unchanged. -/
def ersetzen (wiki : List Char) (s : List Char) : List Char :=
  match h1 : findSub marker s with
  | none => s
  | some i =>
    match h2 : findSub divEnde (s.drop (i + marker.length)) with
    | none => s
    | some j =>
      s.take i ++ ersatz wiki ++
        ersetzen wiki ((s.drop (i + marker.length)).drop (j + divEnde.length))
termination_by s.length
decreasing_by
  have hm : marker.length = 17 := rfl
  have hlen := findSub_laenge s marker i h1
  simp only [List.length_drop]
  omega

/-- Outcome of the publication step (lines 463-468): either the no-op branch
that only logs, or an edit of the main page with the new text. -/
inductive Ausgang where
  | keineAktualisierung : Ausgang
  | aktualisiert : List Char → Ausgang
deriving DecidableEq

/-- Lines 460-468 of `terminideen_posten`: substitute the rendered table into
the main page and edit the page only when the result differs. -/
def posten_abgleich (seite wiki : List Char) : Ausgang :=
  let ergebnis := ersetzen wiki seite
  if ergebnis = seite then Ausgang.keineAktualisierung else Ausgang.aktualisiert ergebnis

theorem zulaessig_elim {sl : List Status} {v : List Nat} {sp : List String} {o : String}
    {d : Nat} (h : zulaessig sl v sp o d = true) :
    ∃ st, statusFuer sl d = some st ∧ absagenKonflikt st sp = false ∧
      disqualifiziert v o d = false := by
  cases hst : statusFuer sl d with
  | none =>
    simp only [zulaessig, hst] at h
    exact absurd h Bool.false_ne_true
  | some st =>
    simp only [zulaessig, hst, Bool.and_eq_true, Bool.not_eq_true'] at h
    exact ⟨st, rfl, h.1, h.2⟩

theorem zulaessig_intro {sl : List Status} {v : List Nat} {sp : List String} {o : String}
    {d : Nat} (st : Status) (h1 : statusFuer sl d = some st)
    (h2 : absagenKonflikt st sp = false) (h3 : disqualifiziert v o d = false) :
    zulaessig sl v sp o d = true := by
  simp [zulaessig, h1, h2, h3]

theorem zulaessig_false_elim {sl : List Status} {v : List Nat} {sp : List String} {o : String}
    {d : Nat} {st : Status} (hst : statusFuer sl d = some st)
    (h : zulaessig sl v sp o d = false) :
    absagenKonflikt st sp = true ∨ disqualifiziert v o d = true := by
  simp only [zulaessig, hst] at h
  rcases Bool.and_eq_false_iff.mp h with h1 | h1
  · left
    simpa using h1
  · right
    simpa using h1

theorem vollMatchAn_elim {sl : List Status} {v : List Nat} {sp : List String} {o : String}
    {d : Nat} (h : vollMatchAn sl v sp o d = true) :
    ∃ st, statusFuer sl d = some st ∧ absagenKonflikt st sp = false ∧
      disqualifiziert v o d = false ∧ vollzaehlig st sp = true := by
  unfold vollMatchAn at h
  simp only [Bool.and_eq_true] at h
  rcases h with ⟨hz, hv⟩
  rcases zulaessig_elim hz with ⟨st, hst, h2, h3⟩
  simp only [hst] at hv
  exact ⟨st, hst, h2, h3, hv⟩

theorem vollMatchAn_intro {sl : List Status} {v : List Nat} {sp : List String} {o : String}
    {d : Nat} (st : Status) (h1 : statusFuer sl d = some st)
    (h2 : absagenKonflikt st sp = false) (h3 : disqualifiziert v o d = false)
    (h4 : vollzaehlig st sp = true) :
    vollMatchAn sl v sp o d = true := by
  unfold vollMatchAn
  rw [zulaessig_intro st h1 h2 h3]
  simp [h1, h4]

/-- Unfolding step of the scan when the date is skipped (a decline conflict
or a disqualified date): the accumulator is passed on unchanged. -/
theorem terminSuche_skip {sl : List Status} {v : List Nat} {sp : List String} {o : String}
    {datum : Nat} {st : Status} (rest : Nat) (acc : Option Nat)
    (hst : statusFuer sl datum = some st)
    (h : absagenKonflikt st sp = true ∨
      (absagenKonflikt st sp = false ∧ disqualifiziert v o datum = true)) :
    terminSuche sl v sp o datum (rest + 1) acc = terminSuche sl v sp o (datum + 1) rest acc := by
  simp only [terminSuche, hst]
  rcases h with h | ⟨h1, h2⟩
  · rw [if_pos h]
  · rw [if_neg (by simp [h1]), if_pos h2]

/-- Characterization of a returned date: the scan either hands back its
accumulator unchanged, or returns a date inside the scanned window that is
eligible (has an entry, nobody declined, not blackout/weekday-blocked). -/
theorem terminSuche_some (sl : List Status) (v : List Nat) (sp : List String) (o : String) :
    ∀ (rest datum : Nat) (acc : Option Nat) (d : Nat),
      terminSuche sl v sp o datum rest acc = some d →
      acc = some d ∨ (datum ≤ d ∧ d < datum + rest ∧ zulaessig sl v sp o d = true) := by
  intro rest
  induction rest with
  | zero =>
    intro datum acc d h
    exact Or.inl h
  | succ rest ih =>
    intro datum acc d h
    simp only [terminSuche] at h
    cases hst : statusFuer sl datum with
    | none =>
      simp only [hst] at h
      exact Or.inl h
    | some st =>
      simp only [hst] at h
      by_cases habs : absagenKonflikt st sp = true
      · rw [if_pos habs] at h
        rcases ih (datum + 1) acc d h with h1 | h1
        · exact Or.inl h1
        · exact Or.inr ⟨by omega, by omega, h1.2.2⟩
      · rw [if_neg habs] at h
        by_cases hdis : disqualifiziert v o datum = true
        · rw [if_pos hdis] at h
          rcases ih (datum + 1) acc d h with h1 | h1
          · exact Or.inl h1
          · exact Or.inr ⟨by omega, by omega, h1.2.2⟩
        · rw [if_neg hdis] at h
          by_cases hvoll : vollzaehlig st sp = true
          · rw [if_pos hvoll] at h
            cases h
            refine Or.inr ⟨Nat.le_refl _, by omega, ?_⟩
            exact zulaessig_intro st hst (Bool.eq_false_iff.mpr habs) (Bool.eq_false_iff.mpr hdis)
          · rw [if_neg hvoll] at h
            cases acc with
            | none =>
              rcases ih (datum + 1) (some datum) d h with h1 | h1
              · cases h1
                refine Or.inr ⟨Nat.le_refl _, by omega, ?_⟩
                exact zulaessig_intro st hst (Bool.eq_false_iff.mpr habs)
                  (Bool.eq_false_iff.mpr hdis)
              · exact Or.inr ⟨by omega, by omega, h1.2.2⟩
            | some s =>
              rcases ih (datum + 1) (some s) d h with h1 | h1
              · exact Or.inl h1
              · exact Or.inr ⟨by omega, by omega, h1.2.2⟩

/-- If the earliest full match of the gap-free scanned prefix lies at `d`,
the scan returns `d` no matter what fallback it has accumulated. -/
theorem terminSuche_vollmatch (sl : List Status) (v : List Nat) (sp : List String) (o : String)
    (d : Nat) :
    ∀ (rest datum : Nat) (acc : Option Nat),
      datum ≤ d → d < datum + rest →
      (∀ e, datum ≤ e → e ≤ d → hatEintrag sl e = true) →
      (∀ e, datum ≤ e → e < d → vollMatchAn sl v sp o e = false) →
      vollMatchAn sl v sp o d = true →
      terminSuche sl v sp o datum rest acc = some d := by
  intro rest
  induction rest with
  | zero =>
    intro datum acc h1 h2 _ _ _
    omega
  | succ rest ih =>
    intro datum acc h1 h2 hgap hfrueh hvoll
    by_cases hdd : datum = d
    · subst hdd
      rcases vollMatchAn_elim hvoll with ⟨st, hst, habs, hdis, hvz⟩
      simp only [terminSuche, hst]
      rw [if_neg (by rw [habs]; exact Bool.false_ne_true),
        if_neg (by rw [hdis]; exact Bool.false_ne_true), if_pos hvz]
    · have hlt : datum < d := by omega
      have hein : hatEintrag sl datum = true := hgap datum (Nat.le_refl _) (by omega)
      rcases Option.isSome_iff_exists.mp hein with ⟨st, hst⟩
      simp only [terminSuche, hst]
      have hnf : vollMatchAn sl v sp o datum = false := hfrueh datum (Nat.le_refl _) hlt
      by_cases habs : absagenKonflikt st sp = true
      · rw [if_pos habs]
        exact ih (datum + 1) acc (by omega) (by omega)
          (fun e he1 he2 => hgap e (by omega) he2)
          (fun e he1 he2 => hfrueh e (by omega) he2) hvoll
      · rw [if_neg habs]
        by_cases hdis : disqualifiziert v o datum = true
        · rw [if_pos hdis]
          exact ih (datum + 1) acc (by omega) (by omega)
            (fun e he1 he2 => hgap e (by omega) he2)
            (fun e he1 he2 => hfrueh e (by omega) he2) hvoll
        · rw [if_neg hdis]
          by_cases hvz : vollzaehlig st sp = true
          · exact absurd (vollMatchAn_intro st hst (Bool.eq_false_iff.mpr habs)
              (Bool.eq_false_iff.mpr hdis) hvz) (by rw [hnf]; exact Bool.false_ne_true)
          · rw [if_neg hvz]
            cases acc with
            | none =>
              exact ih (datum + 1) (some datum) (by omega) (by omega)
                (fun e he1 he2 => hgap e (by omega) he2)
                (fun e he1 he2 => hfrueh e (by omega) he2) hvoll
            | some s =>
              exact ih (datum + 1) (some s) (by omega) (by omega)
                (fun e he1 he2 => hgap e (by omega) he2)
                (fun e he1 he2 => hfrueh e (by omega) he2) hvoll

/-- Skipping over a gap-free stretch of non-eligible dates leaves the scan
state untouched: the scan at `datum` equals the scan restarted at `d`. -/
theorem terminSuche_erreicht (sl : List Status) (v : List Nat) (sp : List String) (o : String)
    (d : Nat) :
    ∀ (rest datum : Nat) (acc : Option Nat),
      datum ≤ d → d < datum + rest →
      (∀ e, datum ≤ e → e ≤ d → hatEintrag sl e = true) →
      (∀ e, datum ≤ e → e < d → zulaessig sl v sp o e = false) →
      terminSuche sl v sp o datum rest acc =
        terminSuche sl v sp o d (datum + rest - d) acc := by
  intro rest
  induction rest with
  | zero =>
    intro datum acc h1 h2 _ _
    omega
  | succ rest ih =>
    intro datum acc h1 h2 hgap hskip
    by_cases hdd : datum = d
    · subst hdd
      have : datum + (rest + 1) - datum = rest + 1 := by omega
      rw [this]
    · have hlt : datum < d := by omega
      have hein : hatEintrag sl datum = true := hgap datum (Nat.le_refl _) (by omega)
      rcases Option.isSome_iff_exists.mp hein with ⟨st, hst⟩
      have hz : zulaessig sl v sp o datum = false := hskip datum (Nat.le_refl _) hlt
      have harith : datum + 1 + rest - d = datum + (rest + 1) - d := by omega
      have hstep : terminSuche sl v sp o datum (rest + 1) acc =
          terminSuche sl v sp o (datum + 1) rest acc := by
        rcases zulaessig_false_elim hst hz with habs | hdis
        · exact terminSuche_skip rest acc hst (Or.inl habs)
        · by_cases habs : absagenKonflikt st sp = true
          · exact terminSuche_skip rest acc hst (Or.inl habs)
          · exact terminSuche_skip rest acc hst (Or.inr ⟨Bool.eq_false_iff.mpr habs, hdis⟩)
      rw [hstep, ih (datum + 1) acc (by omega) (by omega)
        (fun e he1 he2 => hgap e (by omega) he2)
        (fun e he1 he2 => hskip e (by omega) he2), harith]

/-- Stepping over an eligible but not fully accepted date: with an empty
accumulator it becomes the fallback, a non-empty accumulator is kept. -/
theorem terminSuche_teiltreffer (sl : List Status) (v : List Nat) (sp : List String)
    (o : String) (d rest : Nat) (acc : Option Nat)
    (hz : zulaessig sl v sp o d = true) (hnv : vollMatchAn sl v sp o d = false) :
    terminSuche sl v sp o d (rest + 1) acc =
      terminSuche sl v sp o (d + 1) rest (some (acc.getD d)) := by
  rcases zulaessig_elim hz with ⟨st, hst, habs, hdis⟩
  have hvz : vollzaehlig st sp = false := by
    unfold vollMatchAn at hnv
    rw [hz] at hnv
    simpa [hst] using hnv
  simp only [terminSuche, hst]
  rw [if_neg (by rw [habs]; exact Bool.false_ne_true),
    if_neg (by rw [hdis]; exact Bool.false_ne_true),
    if_neg (by rw [hvz]; exact Bool.false_ne_true)]
  cases acc with
  | none => rfl
  | some s => rfl

/-- Once a fallback is recorded, the scan returns it unless a full match
appears in the remaining gap-free stretch; with none ahead, the fallback is
final. -/
theorem terminSuche_haelt (sl : List Status) (v : List Nat) (sp : List String) (o : String) :
    ∀ (rest datum : Nat) (s : Nat),
      (∀ e, datum ≤ e → e < datum + rest →
        (∀ e2, datum ≤ e2 → e2 ≤ e → hatEintrag sl e2 = true) →
        vollMatchAn sl v sp o e = false) →
      terminSuche sl v sp o datum rest (some s) = some s := by
  intro rest
  induction rest with
  | zero =>
    intro datum s _
    rfl
  | succ rest ih =>
    intro datum s hnf
    cases hst : statusFuer sl datum with
    | none => simp [terminSuche, hst]
    | some st =>
      simp only [terminSuche, hst]
      have hein : hatEintrag sl datum = true := by
        unfold hatEintrag
        rw [hst]
        rfl
      have hnf1 : ∀ e, datum + 1 ≤ e → e < datum + 1 + rest →
          (∀ e2, datum + 1 ≤ e2 → e2 ≤ e → hatEintrag sl e2 = true) →
          vollMatchAn sl v sp o e = false := by
        intro e he1 he2 hgap
        refine hnf e (by omega) (by omega) ?_
        intro e2 h1 h2
        rcases Nat.eq_or_lt_of_le h1 with h3 | h3
        · rw [← h3]
          exact hein
        · exact hgap e2 (by omega) h2
      by_cases habs : absagenKonflikt st sp = true
      · rw [if_pos habs]
        exact ih (datum + 1) s hnf1
      · rw [if_neg habs]
        by_cases hdis : disqualifiziert v o datum = true
        · rw [if_pos hdis]
          exact ih (datum + 1) s hnf1
        · rw [if_neg hdis]
          by_cases hvz : vollzaehlig st sp = true
          · have := hnf datum (Nat.le_refl _) (by omega)
              (fun e2 h1 h2 => by
                have : e2 = datum := by omega
                rw [this]
                exact hein)
            rw [vollMatchAn_intro st hst (Bool.eq_false_iff.mpr habs)
              (Bool.eq_false_iff.mpr hdis) hvz] at this
            cases this
          · rw [if_neg hvz]
            exact ih (datum + 1) s hnf1

/-- Two tables that agree strictly below a common gap date `g` drive the
scan identically: the scan never reads an entry at or beyond the gap. -/
theorem terminSuche_vor_luecke (sl sl2 : List Status) (v : List Nat) (sp : List String)
    (o : String) (g : Nat) (hg1 : statusFuer sl g = none) (hg2 : statusFuer sl2 g = none) :
    ∀ (rest datum : Nat) (acc : Option Nat),
      datum ≤ g →
      (∀ e, datum ≤ e → e < g → statusFuer sl e = statusFuer sl2 e) →
      terminSuche sl v sp o datum rest acc = terminSuche sl2 v sp o datum rest acc := by
  intro rest
  induction rest with
  | zero =>
    intro datum acc _ _
    rfl
  | succ rest ih =>
    intro datum acc hdg hagree
    by_cases hdd : datum = g
    · subst hdd
      simp only [terminSuche, hg1, hg2]
    · have hlt : datum < g := by omega
      have heq := hagree datum (Nat.le_refl _) hlt
      cases hst : statusFuer sl datum with
      | none =>
        have hst2 : statusFuer sl2 datum = none := by rw [← heq, hst]
        simp only [terminSuche, hst, hst2]
      | some st =>
        have hst2 : statusFuer sl2 datum = some st := by rw [← heq, hst]
        simp only [terminSuche, hst, hst2]
        have ihx := fun acc2 => ih (datum + 1) acc2 (by omega)
          (fun e he1 he2 => hagree e (by omega) he2)
        by_cases habs : absagenKonflikt st sp = true
        · simp only [if_pos habs]
          exact ihx acc
        · simp only [if_neg habs]
          by_cases hdis : disqualifiziert v o datum = true
          · simp only [if_pos hdis]
            exact ihx acc
          · simp only [if_neg hdis]
            by_cases hvz : vollzaehlig st sp = true
            · simp only [if_pos hvz]
            · simp only [if_neg hvz]
              cases acc with
              | none => exact ihx (some datum)
              | some s => exact ihx (some s)

theorem filter_fehlend_leer_iff (zusagen sp : List String) :
    sp.filter (fun s => !zusagen.contains s) = [] ↔
      sp.all (fun s => zusagen.contains s) = true := by
  rw [List.filter_eq_nil_iff, List.all_eq_true]
  constructor
  · intro h a ha
    have hc := h a ha
    cases hb : zusagen.contains a with
    | true => rfl
    | false =>
      rw [hb] at hc
      exact absurd rfl hc
  · intro h a ha
    have hc := h a ha
    simp only [hc, Bool.not_true]
    exact Bool.false_ne_true

/-- The scan on the empty table ends at once with no proposal. -/
theorem terminidee_leer (v : List Nat) (sp : List String) (o : String) (heute delta : Nat) :
    terminidee [] v sp o heute delta = (none, []) := by
  have h : terminSuche [] v sp o heute (delta + 1) none = none := by
    simp [terminSuche, statusFuer]
  simp [terminidee, h]

/-- Reaching the earliest eligible date with no full match anywhere in the
gap-free scanned prefix, the scan settles on that date as the fallback. -/
theorem terminSuche_fallback (sl : List Status) (v : List Nat) (sp : List String) (o : String)
    (heute delta d : Nat)
    (hd1 : heute ≤ d) (hd2 : d ≤ heute + delta)
    (hgap : ∀ e, e ≤ d → heute ≤ e → hatEintrag sl e = true)
    (hzul : zulaessig sl v sp o d = true)
    (hfrueh : ∀ e, e < d → heute ≤ e → zulaessig sl v sp o e = false)
    (hnofull : ∀ e, e ≤ heute + delta → heute ≤ e →
      (∀ e2, e2 ≤ e → heute ≤ e2 → hatEintrag sl e2 = true) →
      vollMatchAn sl v sp o e = false) :
    terminSuche sl v sp o heute (delta + 1) none = some d := by
  have hreach := terminSuche_erreicht sl v sp o d (delta + 1) heute none hd1 (by omega)
    (fun e he1 he2 => hgap e he2 he1) (fun e he1 he2 => hfrueh e he2 he1)
  have hrest : heute + (delta + 1) - d = (heute + delta - d) + 1 := by omega
  have hnv : vollMatchAn sl v sp o d = false :=
    hnofull d hd2 hd1 (fun e2 h1 h2 => hgap e2 h1 h2)
  have hpart := terminSuche_teiltreffer sl v sp o d (heute + delta - d) none hzul hnv
  have hkeep : terminSuche sl v sp o (d + 1) (heute + delta - d) (some d) = some d := by
    apply terminSuche_haelt
    intro e he1 he2 hgap2
    refine hnofull e (by omega) (by omega) ?_
    intro e2 h1 h2
    rcases Nat.lt_or_ge e2 (d + 1) with h3 | h3
    · exact hgap e2 (by omega) h2
    · exact hgap2 e2 h3 h1
  rw [hreach, hrest, hpart]
  exact hkeep

/-- C1: if the gap-free scanned prefix of the horizon contains an eligible
date on which every roster participant accepted, the result is exactly the
earliest such date with an empty missing list: the scan stops there and no
later date is ever preferred over it. -/
theorem vollmatch_praeferenz (sl : List Status) (verboten : List Nat) (spieler : List String)
    (online : String) (heute delta d : Nat)
    (hd1 : heute ≤ d) (hd2 : d ≤ heute + delta)
    (hgap : ∀ e, e ≤ d → heute ≤ e → hatEintrag sl e = true)
    (hvoll : vollMatchAn sl verboten spieler online d = true)
    (hfrueh : ∀ e, e < d → heute ≤ e → vollMatchAn sl verboten spieler online e = false) :
    terminidee sl verboten spieler online heute delta = (some d, []) := by
  have hscan : terminSuche sl verboten spieler online heute (delta + 1) none = some d :=
    terminSuche_vollmatch sl verboten spieler online d (delta + 1) heute none hd1 (by omega)
      (fun e he1 he2 => hgap e he2 he1) (fun e he1 he2 => hfrueh e he2 he1) hvoll
  rcases vollMatchAn_elim hvoll with ⟨st, hst, _, _, hvz⟩
  simp only [terminidee, hscan, hst]
  rw [(filter_fehlend_leer_iff st.zusagen spieler).mpr hvz]

/-- C2: with no full match in the gap-free scanned prefix, the result date is
the earliest eligible date of that prefix, however many participants are
missing there or on any later eligible date. -/
theorem fallback_monotonie (sl : List Status) (verboten : List Nat) (spieler : List String)
    (online : String) (heute delta d : Nat)
    (hd1 : heute ≤ d) (hd2 : d ≤ heute + delta)
    (hgap : ∀ e, e ≤ d → heute ≤ e → hatEintrag sl e = true)
    (hzul : zulaessig sl verboten spieler online d = true)
    (hfrueh : ∀ e, e < d → heute ≤ e → zulaessig sl verboten spieler online e = false)
    (hnofull : ∀ e, e ≤ heute + delta → heute ≤ e →
      (∀ e2, e2 ≤ e → heute ≤ e2 → hatEintrag sl e2 = true) →
      vollMatchAn sl verboten spieler online e = false) :
    (terminidee sl verboten spieler online heute delta).1 = some d := by
  have hscan := terminSuche_fallback sl verboten spieler online heute delta d hd1 hd2 hgap
    hzul hfrueh hnofull
  simp only [terminidee, hscan]
  cases hst : statusFuer sl d <;> rfl

theorem statusFuer_filter_lt (sl : List Status) (g d : Nat) (hdg : d < g) :
    statusFuer (sl.filter (fun st => st.datum < g)) d = statusFuer sl d := by
  induction sl with
  | nil => rfl
  | cons st rest ih =>
    simp only [List.filter_cons]
    by_cases hq : st.datum < g
    · rw [if_pos (by simpa using hq)]
      cases hbd : (st.datum == d) with
      | true => simp only [statusFuer, List.find?, hbd]
      | false =>
        simp only [statusFuer, List.find?, hbd]
        exact ih
    · rw [if_neg (by simpa using hq)]
      have hne : (st.datum == d) = false := by
        simp only [beq_eq_false_iff_ne, ne_eq]
        omega
      simp only [statusFuer, List.find?, hne]
      exact ih

theorem statusFuer_filter_selbst (sl : List Status) (g : Nat) :
    statusFuer (sl.filter (fun st => st.datum < g)) g = none := by
  induction sl with
  | nil => rfl
  | cons st rest ih =>
    simp only [List.filter_cons]
    by_cases hq : st.datum < g
    · rw [if_pos (by simpa using hq)]
      have hne : (st.datum == g) = false := by
        simp only [beq_eq_false_iff_ne, ne_eq]
        omega
      simp only [statusFuer, List.find?, hne]
      exact ih
    · rw [if_neg (by simpa using hq)]
      exact ih

/-- C3: if the table has no entry for a date `g` inside the horizon, nothing
at or beyond `g` is ever read: the whole result is unchanged when all entries
from `g` on are discarded, and any proposed date lies strictly before `g` and
has a table entry. -/
theorem luecken_abbruch (sl : List Status) (verboten : List Nat) (spieler : List String)
    (online : String) (heute delta g : Nat)
    (hg1 : heute ≤ g) (hg2 : g ≤ heute + delta)
    (hkein : hatEintrag sl g = false) :
    terminidee sl verboten spieler online heute delta =
      terminidee (sl.filter (fun st => st.datum < g)) verboten spieler online heute delta
    ∧ (∀ d, (terminidee sl verboten spieler online heute delta).1 = some d →
        d < g ∧ hatEintrag sl d = true) := by
  have hg1n : statusFuer sl g = none := by
    cases h : statusFuer sl g with
    | none => rfl
    | some st =>
      unfold hatEintrag at hkein
      rw [h] at hkein
      simp at hkein
  have hg2n : statusFuer (sl.filter (fun st => st.datum < g)) g = none :=
    statusFuer_filter_selbst sl g
  have hscan := terminSuche_vor_luecke sl (sl.filter (fun st => st.datum < g)) verboten
    spieler online g hg1n hg2n (delta + 1) heute none hg1
    (fun e _ he2 => (statusFuer_filter_lt sl g e he2).symm)
  cases hval : terminSuche sl verboten spieler online heute (delta + 1) none with
  | none =>
    have hval2 : terminSuche (sl.filter (fun st => st.datum < g)) verboten spieler online
        heute (delta + 1) none = none := by rw [← hscan, hval]
    constructor
    · simp only [terminidee, hval, hval2]
    · intro d hd
      simp only [terminidee, hval] at hd
      cases hd
  | some dd =>
    have hval2 : terminSuche (sl.filter (fun st => st.datum < g)) verboten spieler online
        heute (delta + 1) none = some dd := by rw [← hscan, hval]
    have hchar := terminSuche_some (sl.filter (fun st => st.datum < g)) verboten spieler
      online (delta + 1) heute none dd hval2
    rcases hchar with h | ⟨_, _, hzul2⟩
    · cases h
    rcases zulaessig_elim hzul2 with ⟨st, hst2, _, _⟩
    have hst2f : List.find? (fun s => s.datum == dd) (sl.filter (fun st => st.datum < g)) =
        some st := hst2
    have hmem := List.mem_of_find?_eq_some hst2f
    have hdat := List.find?_some hst2f
    have hbeq : st.datum = dd := by simpa using hdat
    have hddlt : dd < g := by
      have hin := (List.mem_filter.mp hmem).2
      simp only [decide_eq_true_eq] at hin
      omega
    have hst1 : statusFuer sl dd = some st := by
      rw [← statusFuer_filter_lt sl g dd hddlt]
      exact hst2
    constructor
    · simp only [terminidee, hval, hval2, hst1, hst2]
    · intro d hd
      simp only [terminidee, hval, hst1] at hd
      cases hd
      refine ⟨hddlt, ?_⟩
      unfold hatEintrag
      rw [hst1]
      rfl

/-- A date whose per-date checks disqualify it is never the proposal. -/
theorem disqualifiziert_nie_gewaehlt (sl : List Status) (verboten : List Nat)
    (spieler : List String) (online : String) (heute delta d : Nat)
    (hdis : disqualifiziert verboten online d = true) :
    (terminidee sl verboten spieler online heute delta).1 ≠ some d := by
  intro hd
  cases hval : terminSuche sl verboten spieler online heute (delta + 1) none with
  | none =>
    simp only [terminidee, hval] at hd
    cases hd
  | some dd =>
    have hdd : dd = d := by
      simp only [terminidee, hval] at hd
      cases hst : statusFuer sl dd with
      | none => simp only [hst] at hd; exact (Option.some_inj.mp hd)
      | some st => simp only [hst] at hd; exact (Option.some_inj.mp hd)
    subst hdd
    rcases terminSuche_some sl verboten spieler online (delta + 1) heute none dd hval with
      h | ⟨_, _, hzul⟩
    · cases h
    rcases zulaessig_elim hzul with ⟨st, _, _, hdis2⟩
    rw [hdis] at hdis2
    cases hdis2

/-- C4: a date on which any roster participant declined is never proposed,
even if every participant (including that one) also appears in the accepted
set: the decline check runs first and disqualifies the date outright. -/
theorem absage_ausschluss (sl : List Status) (verboten : List Nat) (spieler : List String)
    (online : String) (heute delta d : Nat) (p : String) (st : Status)
    (hst : statusFuer sl d = some st) (hp : p ∈ spieler) (hpa : p ∈ st.absagen) :
    (terminidee sl verboten spieler online heute delta).1 ≠ some d := by
  intro hd
  cases hval : terminSuche sl verboten spieler online heute (delta + 1) none with
  | none =>
    simp only [terminidee, hval] at hd
    cases hd
  | some dd =>
    have hdd : dd = d := by
      simp only [terminidee, hval] at hd
      cases hst2 : statusFuer sl dd with
      | none => simp only [hst2] at hd; exact (Option.some_inj.mp hd)
      | some st2 => simp only [hst2] at hd; exact (Option.some_inj.mp hd)
    subst hdd
    rcases terminSuche_some sl verboten spieler online (delta + 1) heute none dd hval with
      h | ⟨_, _, hzul⟩
    · cases h
    rcases zulaessig_elim hzul with ⟨st2, hst2, habs2, _⟩
    have hsame : st2 = st := by
      rw [hst] at hst2
      exact (Option.some_inj.mp hst2).symm
    subst hsame
    have htrue : absagenKonflikt st2 spieler = true := by
      unfold absagenKonflikt
      rw [List.any_eq_true]
      refine ⟨p, hpa, ?_⟩
      exact List.elem_iff.mpr hp
    rw [htrue] at habs2
    cases habs2

/-- C5: a blackout date (an appointment in a locked-in state) is never
proposed whatever the acceptance state; for a campaign not played online a
Monday-Thursday date is never proposed either, while for Friday-Sunday dates
the weekday test contributes nothing to disqualification. -/
theorem blackout_und_wochentag (termine : List Termin) (sl : List Status)
    (spieler : List String) (online : String) (heute delta d : Nat) :
    (d ∈ verbotene_termine termine →
      (terminidee sl (verbotene_termine termine) spieler online heute delta).1 ≠ some d)
    ∧ (wochentag d ≤ 3 → online = "Nein" →
      (terminidee sl (verbotene_termine termine) spieler online heute delta).1 ≠ some d)
    ∧ (4 ≤ wochentag d →
      disqualifiziert (verbotene_termine termine) online d =
        (verbotene_termine termine).contains d) := by
  refine ⟨?_, ?_, ?_⟩
  · intro hmem
    apply disqualifiziert_nie_gewaehlt
    unfold disqualifiziert
    rw [Bool.or_eq_true]
    left
    exact List.elem_iff.mpr hmem
  · intro hwt honline
    apply disqualifiziert_nie_gewaehlt
    unfold disqualifiziert
    rw [Bool.or_eq_true]
    right
    subst honline
    simp [hwt]
  · intro hwt
    unfold disqualifiziert
    have : ¬ wochentag d ≤ 3 := by omega
    simp [this]

/-- C6: for rosters produced by `namen_auslesen`, a non-null proposal's
missing list is the roster filtered to the participants without an
acceptance on the chosen date, it is sorted ascending by participant name
(code-point order, CPython's string order), and it is empty exactly when the
chosen date is a full match; a null proposal carries the empty missing
list. -/
theorem fehlende_zusagen_korrekt (zeilen : List (List Char)) (sl : List Status)
    (verboten : List Nat) (online : String) (heute delta : Nat) :
    (∀ d, (terminidee sl verboten (namen_auslesen zeilen) online heute delta).1 = some d →
      ∃ st, statusFuer sl d = some st ∧
        (terminidee sl verboten (namen_auslesen zeilen) online heute delta).2 =
          (namen_auslesen zeilen).filter (fun s => !st.zusagen.contains s) ∧
        List.Sorted (fun a b => strLe a b = true)
          (terminidee sl verboten (namen_auslesen zeilen) online heute delta).2 ∧
        ((terminidee sl verboten (namen_auslesen zeilen) online heute delta).2 = [] ↔
          vollzaehlig st (namen_auslesen zeilen) = true))
    ∧ ((terminidee sl verboten (namen_auslesen zeilen) online heute delta).1 = none →
        (terminidee sl verboten (namen_auslesen zeilen) online heute delta).2 = []) := by
  have hsort : List.Sorted (fun a b => strLe a b = true) (namen_auslesen zeilen) :=
    sorted_sortiere _
  cases hval : terminSuche sl verboten (namen_auslesen zeilen) online heute (delta + 1)
      none with
  | none =>
    constructor
    · intro d hd
      simp only [terminidee, hval] at hd
      cases hd
    · intro _
      simp only [terminidee, hval]
  | some dd =>
    rcases terminSuche_some sl verboten (namen_auslesen zeilen) online (delta + 1) heute
        none dd hval with h | ⟨_, _, hzul⟩
    · cases h
    rcases zulaessig_elim hzul with ⟨st, hst, _, _⟩
    constructor
    · intro d hd
      have hdd : dd = d := by
        simp only [terminidee, hval, hst] at hd
        exact Option.some_inj.mp hd
      subst hdd
      refine ⟨st, hst, ?_, ?_, ?_⟩
      · simp only [terminidee, hval, hst]
      · simp only [terminidee, hval, hst]
        exact List.Sorted.filter _ hsort
      · simp only [terminidee, hval, hst]
        exact filter_fehlend_leer_iff st.zusagen (namen_auslesen zeilen)
    · intro hd
      simp only [terminidee, hval, hst] at hd
      cases hd

/-- C8 counterexample: a failed availability fetch yields the very same
status list as a successful fetch of an empty table, and the scheduling run
then proceeds, giving the campaign the ordinary no-date result instead of
aborting. -/
theorem abfragefehler_wie_leere_tabelle :
    zusagestatus (Except.error "ConnectionError") = zusagestatus (Except.ok [])
    ∧ terminidee (zusagestatus (Except.error "ConnectionError")) [] ["Alice"] "Ja" 738885 7 =
        (none, []) := ⟨rfl, rfl⟩

/-- C8 amended: on a fetch failure `zusagestatus` logs and returns the empty
table, and scheduling continues: every non-excluded campaign receives the
`NotPossible` result (no date, empty missing list); the failure is not
distinguishable from an empty table in the returned data. -/
theorem abfragefehler_ergebnis (fehler : String) (verboten : List Nat)
    (kampagnen : List (Kampagne × String)) (heute delta : Nat) :
    zusagestatus (Except.error fehler) = [] ∧
    terminideen (zusagestatus (Except.error fehler)) verboten kampagnen heute delta =
      (kampagnen.filter (fun k => k.1.name ≠ "Testkampagne")).map
        (fun k => { kampagne := k.1.name, datum := none, fehlen := [] }) := by
  refine ⟨rfl, ?_⟩
  unfold terminideen
  refine List.map_congr_left ?_
  intro k _
  have h : terminidee (zusagestatus (Except.error fehler)) verboten k.1.spieler k.2
      heute delta = (none, []) := terminidee_leer verboten k.1.spieler k.2 heute delta
  simp only [h]

/-- C10: a date present in the table with no responses at all neither stops
the scan nor trips the decline rule; if it is not blacked out, not
weekday-blocked, earliest eligible, and no full match exists in the scanned
prefix, it becomes the proposal with the entire roster missing.  The second
conjunct records that the availability parser produces exactly such an empty
status for a date with falsy `content`. -/
theorem leerer_inhalt_fallback (sl : List Status) (verboten : List Nat)
    (spieler : List String) (online : String) (heute delta d : Nat) (st : Status)
    (hst : statusFuer sl d = some st)
    (habs : st.absagen = []) (hzus : st.zusagen = [])
    (hsp : spieler ≠ [])
    (hd1 : heute ≤ d) (hd2 : d ≤ heute + delta)
    (hgap : ∀ e, e ≤ d → heute ≤ e → hatEintrag sl e = true)
    (hdisq : disqualifiziert verboten online d = false)
    (hfrueh : ∀ e, e < d → heute ≤ e → zulaessig sl verboten spieler online e = false)
    (hnofull : ∀ e, e ≤ heute + delta → heute ≤ e →
      (∀ e2, e2 ≤ e → heute ≤ e2 → hatEintrag sl e2 = true) →
      vollMatchAn sl verboten spieler online e = false) :
    terminidee sl verboten spieler online heute delta = (some d, spieler)
    ∧ ∀ d2 : Nat, zusagestatus (Except.ok [{ datum := d2 }]) = [{ datum := d2 }] := by
  constructor
  · have hkon : absagenKonflikt st spieler = false := by
      simp [absagenKonflikt, habs]
    have hzul : zulaessig sl verboten spieler online d = true :=
      zulaessig_intro st hst hkon hdisq
    have hscan := terminSuche_fallback sl verboten spieler online heute delta d hd1 hd2
      hgap hzul hfrueh hnofull
    simp only [terminidee, hscan, hst]
    rw [hzus]
    simp
  · intro d2
    rfl

/-- C7 evaluation at the failing input: as soon as one scheduling result has
no date and the list holds at least two results, the sort on line 447 raises
a `TypeError` instead of ordering null dates last, so no report is produced,
although the very next lines render null dates explicitly. -/
theorem posten_sortierung_absturz :
    posten_sortierung
        [{ kampagne := "Kampagne A", datum := none, fehlen := [] },
         { kampagne := "Kampagne B", datum := some 738885, fehlen := [] }] =
      Except.error "TypeError: unorderable NoneType and date" := rfl

theorem istPraefix_zerlegung : ∀ p s : List Char, istPraefix p s = true → ∃ t, s = p ++ t := by
  intro p
  induction p with
  | nil =>
    intro s _
    exact ⟨s, rfl⟩
  | cons a p ih =>
    intro s h
    cases s with
    | nil => simp [istPraefix] at h
    | cons b s =>
      simp only [istPraefix, Bool.and_eq_true, beq_iff_eq] at h
      rcases ih s h.2 with ⟨t, ht⟩
      exact ⟨t, by rw [h.1, ht]; rfl⟩

theorem ersetzen_kein_treffer (wiki s : List Char) (h : findSub marker s = none) :
    ersetzen wiki s = s := by
  rw [ersetzen.eq_def]
  split
  · rfl
  · rename_i i heq
    rw [h] at heq
    cases heq

theorem ersetzen_kein_ende (wiki s : List Char) (i : Nat) (h1 : findSub marker s = some i)
    (h2 : findSub divEnde (s.drop (i + marker.length)) = none) :
    ersetzen wiki s = s := by
  rw [ersetzen.eq_def]
  split
  · rfl
  · rename_i i2 heq1
    rw [h1] at heq1
    cases heq1
    split
    · rfl
    · rename_i j2 heq2
      rw [h2] at heq2
      cases heq2

theorem ersetzen_treffer (wiki s : List Char) (i j : Nat) (h1 : findSub marker s = some i)
    (h2 : findSub divEnde (s.drop (i + marker.length)) = some j) :
    ersetzen wiki s = s.take i ++ ersatz wiki ++
      ersetzen wiki ((s.drop (i + marker.length)).drop (j + divEnde.length)) := by
  rw [ersetzen.eq_def]
  split
  · rename_i heq
    rw [h1] at heq
    cases heq
  · rename_i i2 heq1
    rw [h1] at heq1
    cases heq1
    split
    · rename_i heq2
      rw [h2] at heq2
      cases heq2
    · rename_i j2 heq2
      rw [h2] at heq2
      cases heq2
      rfl

/-- The substitution of line 462 is idempotent when the first `</div>` after
the inserted newline sits exactly at the end of the rendered table (which is
how `tabelle_formatieren` ends its output): substituting into an
already-substituted page reproduces it unchanged. -/
theorem ersetzen_idempotent (wiki : List Char) (j : Nat)
    (h2 : findSub divEnde ('\n' :: wiki) = some j)
    (h3 : j + divEnde.length = wiki.length + 1) :
    ∀ s, ersetzen wiki (ersetzen wiki s) = ersetzen wiki s := by
  suffices H : ∀ n (s : List Char), s.length < n →
      ersetzen wiki (ersetzen wiki s) = ersetzen wiki s by
    intro s
    exact H (s.length + 1) s (by omega)
  intro n
  induction n with
  | zero =>
    intro s h
    omega
  | succ n ih =>
    intro s hs
    cases hm : findSub marker s with
    | none =>
      rw [ersetzen_kein_treffer wiki s hm, ersetzen_kein_treffer wiki s hm]
    | some i =>
      cases hd : findSub divEnde (s.drop (i + marker.length)) with
      | none =>
        rw [ersetzen_kein_ende wiki s i hm hd, ersetzen_kein_ende wiki s i hm hd]
      | some j2 =>
        have hmlen : marker.length = 17 := rfl
        have hdlen : divEnde.length = 6 := rfl
        have hil := findSub_laenge s marker i hm
        have hjl := findSub_laenge (s.drop (i + marker.length)) divEnde j2 hd
        rw [List.length_drop] at hjl
        have hrestlen : ((s.drop (i + marker.length)).drop (j2 + divEnde.length)).length < n := by
          simp only [List.length_drop]
          omega
        have hX := ih _ hrestlen
        have hstep := ersetzen_treffer wiki s i j2 hm hd
        rw [hstep]
        set X := ersetzen wiki ((s.drop (i + marker.length)).drop (j2 + divEnde.length))
          with hXdef
        -- decompose s at the marker occurrence
        have hTlen : (s.take i).length = i := by
          rw [List.length_take]
          omega
        rcases istPraefix_zerlegung marker (s.drop i) (findSub_some_praefix s marker i hm)
          with ⟨u, hu⟩
        have hs_eq : s = s.take i ++ (marker ++ u) := by
          rw [← hu, List.take_append_drop]
        -- the rewritten page, regrouped around the marker
        have hr_eq : s.take i ++ ersatz wiki ++ X =
            s.take i ++ (marker ++ ('\n' :: wiki ++ X)) := by
          unfold ersatz
          simp [List.append_assoc]
        rw [hr_eq]
        -- the leftmost marker of the rewritten page is still at i
        have hkein : ∀ q, q < i →
            istPraefix marker ((s.take i ++ (marker ++ ('\n' :: wiki ++ X))).drop q) = false := by
          intro q hq
          have hq' : q ≤ (s.take i).length := by omega
          have hsq : istPraefix marker (s.drop q) = false :=
            findSub_some_min s marker i hm q hq
          rw [hs_eq, List.drop_append_of_le_length hq'] at hsq
          rw [List.drop_append_of_le_length hq']
          have hassoc1 : (s.take i).drop q ++ (marker ++ u) =
              ((s.take i).drop q ++ marker) ++ u := by
            simp [List.append_assoc]
          have hassoc2 : (s.take i).drop q ++ (marker ++ ('\n' :: wiki ++ X)) =
              ((s.take i).drop q ++ marker) ++ ('\n' :: wiki ++ X) := by
            simp [List.append_assoc]
          have hlen2 : marker.length ≤ ((s.take i).drop q ++ marker).length := by
            rw [List.length_append]
            omega
          rw [hassoc1, istPraefix_append marker _ u hlen2] at hsq
          rw [hassoc2, istPraefix_append marker _ _ hlen2]
          exact hsq
        have htreffer : istPraefix marker
            ((s.take i ++ (marker ++ ('\n' :: wiki ++ X))).drop i) = true := by
          have hdl := List.drop_left (s.take i) (marker ++ ('\n' :: wiki ++ X))
          rw [hTlen] at hdl
          rw [hdl]
          exact istPraefix_self_append marker _
        have hfind1 : findSub marker (s.take i ++ (marker ++ ('\n' :: wiki ++ X))) = some i :=
          findSub_eq_of _ marker i htreffer hkein
        -- after the marker the page continues with the newline, the table and the tail
        have hdrop1 : (s.take i ++ (marker ++ ('\n' :: wiki ++ X))).drop (i + marker.length) =
            '\n' :: wiki ++ X := by
          have : s.take i ++ (marker ++ ('\n' :: wiki ++ X)) =
              (s.take i ++ marker) ++ ('\n' :: wiki ++ X) := by
            simp [List.append_assoc]
          rw [this]
          have hlen3 : (s.take i ++ marker).length = i + marker.length := by
            rw [List.length_append, hTlen]
          rw [← hlen3, List.drop_left]
        -- the first closing tag after the marker ends exactly at the table end
        have hfind2 : findSub divEnde ('\n' :: wiki ++ X) = some j := by
          apply findSub_eq_of
          · have hj6 : j ≤ ('\n' :: wiki).length := by
              simp only [List.length_cons]
              omega
            rw [show ('\n' :: wiki ++ X) = ('\n' :: wiki) ++ X from rfl,
              List.drop_append_of_le_length hj6]
            have hlen4 : divEnde.length ≤ (('\n' :: wiki).drop j).length := by
              rw [List.length_drop]
              simp only [List.length_cons]
              omega
            rw [istPraefix_append divEnde _ X hlen4]
            exact findSub_some_praefix ('\n' :: wiki) divEnde j h2
          · intro q hq
            have hq6 : q ≤ ('\n' :: wiki).length := by
              simp only [List.length_cons]
              omega
            rw [show ('\n' :: wiki ++ X) = ('\n' :: wiki) ++ X from rfl,
              List.drop_append_of_le_length hq6]
            have hlen5 : divEnde.length ≤ (('\n' :: wiki).drop q).length := by
              rw [List.length_drop]
              simp only [List.length_cons]
              omega
            rw [istPraefix_append divEnde _ X hlen5]
            exact findSub_some_min ('\n' :: wiki) divEnde j h2 q hq
        have hdrop2 : (('\n' :: wiki ++ X)).drop (j + divEnde.length) = X := by
          have hlen6 : ('\n' :: wiki).length = j + divEnde.length := by
            simp only [List.length_cons]
            omega
          rw [show ('\n' :: wiki ++ X) = ('\n' :: wiki) ++ X from rfl, ← hlen6,
            List.drop_left]
        have htake : (s.take i ++ (marker ++ ('\n' :: wiki ++ X))).take i = s.take i := by
          have htl := List.take_left (s.take i) (marker ++ ('\n' :: wiki ++ X))
          rw [hTlen] at htl
          exact htl
        rw [ersetzen_treffer wiki _ i j hfind1 (by rw [hdrop1]; exact hfind2)]
        rw [htake, hdrop1, hdrop2, hX]
        unfold ersatz
        simp [List.append_assoc]

/-- C9: rendering is deterministic (identical results give byte-identical
markup); after a successful page update, re-publishing the same rendered
table is recognized as requiring no edit; the no-op branch is taken exactly
when the substitution leaves the page unchanged; and the no-op outcome is
distinct from every update outcome.  The hypotheses say that the first
`</div>` after the inserted newline is the one ending the rendered table,
which is how `tabelle_formatieren` terminates its output. -/
theorem posten_idempotent (termine : List Termin) (tabelle : List (List String))
    (seite wiki : List Char) (j : Nat)
    (h2 : findSub divEnde ('\n' :: wiki) = some j)
    (h3 : j + divEnde.length = wiki.length + 1) :
    tabelle_formatieren termine tabelle = tabelle_formatieren termine tabelle
    ∧ (∀ neu, posten_abgleich seite wiki = Ausgang.aktualisiert neu →
        posten_abgleich neu wiki = Ausgang.keineAktualisierung)
    ∧ (posten_abgleich seite wiki = Ausgang.keineAktualisierung ↔
        ersetzen wiki seite = seite)
    ∧ (∀ neu, Ausgang.keineAktualisierung ≠ Ausgang.aktualisiert neu) := by
  refine ⟨rfl, ?_, ?_, ?_⟩
  · intro neu hneu
    unfold posten_abgleich at hneu ⊢
    by_cases he : ersetzen wiki seite = seite
    · rw [if_pos he] at hneu
      cases hneu
    · rw [if_neg he] at hneu
      cases hneu
      rw [if_pos (ersetzen_idempotent wiki j h2 h3 seite)]
  · unfold posten_abgleich
    by_cases he : ersetzen wiki seite = seite
    · rw [if_pos he]
      exact ⟨fun _ => he, fun _ => rfl⟩
    · rw [if_neg he]
      constructor
      · intro hcon
        cases hcon
      · intro hcon
        exact absurd hcon he
  · intro neu hcon
    cases hcon

/-- Witness for C1 at a concrete table: a one-day horizon whose single date
is a full match is proposed with nobody missing. -/
theorem vollmatch_praeferenz_zeuge :
    terminidee [{ datum := 10, zusagen := ["Anna"], absagen := [], unsicher := [] }]
      [] ["Anna"] "Ja" 10 0 = (some 10, []) :=
  vollmatch_praeferenz
    [{ datum := 10, zusagen := ["Anna"], absagen := [], unsicher := [] }]
    [] ["Anna"] "Ja" 10 0 10 (by decide) (by decide) (by decide) (by decide) (by decide)

/-- Witness for C2: with no full match in the horizon, the first eligible
date wins even though a later date has strictly more acceptances. -/
theorem fallback_monotonie_zeuge :
    (terminidee
      [{ datum := 10, zusagen := [], absagen := [], unsicher := [] },
       { datum := 11, zusagen := ["Anna"], absagen := [], unsicher := [] }]
      [] ["Anna", "Ben"] "Ja" 10 1).1 = some 10 :=
  fallback_monotonie
    [{ datum := 10, zusagen := [], absagen := [], unsicher := [] },
     { datum := 11, zusagen := ["Anna"], absagen := [], unsicher := [] }]
    [] ["Anna", "Ben"] "Ja" 10 1 10 (by decide) (by decide) (by decide) (by decide)
    (by decide) (by decide)

/-- Witness for C3: with a gap directly after the only entry, discarding
everything from the gap on leaves the result unchanged. -/
theorem luecken_abbruch_zeuge :
    terminidee [{ datum := 5, zusagen := ["Anna"], absagen := [], unsicher := [] }]
        [] ["Anna"] "Ja" 5 2 =
      terminidee
        (List.filter (fun st => st.datum < 6)
          [{ datum := 5, zusagen := ["Anna"], absagen := [], unsicher := [] }])
        [] ["Anna"] "Ja" 5 2 :=
  (luecken_abbruch [{ datum := 5, zusagen := ["Anna"], absagen := [], unsicher := [] }]
    [] ["Anna"] "Ja" 5 2 6 (by decide) (by decide) (by decide)).1

/-- Witness for C4 at the spec's tie-break scenario: a participant listed as
both accepted and declined on the same date still disqualifies it. -/
theorem absage_ausschluss_zeuge :
    (terminidee [{ datum := 7, zusagen := ["Anna"], absagen := ["Anna"], unsicher := [] }]
      [] ["Anna"] "Ja" 7 0).1 ≠ some 7 :=
  absage_ausschluss
    [{ datum := 7, zusagen := ["Anna"], absagen := ["Anna"], unsicher := [] }]
    [] ["Anna"] "Ja" 7 0 7 "Anna"
    { datum := 7, zusagen := ["Anna"], absagen := ["Anna"], unsicher := [] }
    rfl (by decide) (by decide)

/-- Witness for C5: a fully accepted date of a scheduled appointment is
refused; a fully accepted Wednesday is refused for an offline campaign; and
on a Friday the weekday test contributes nothing. -/
theorem blackout_und_wochentag_zeuge :
    ((terminidee [{ datum := 20, zusagen := ["Anna"], absagen := [], unsicher := [] }]
      (verbotene_termine
        [{ kampagne := "K", datum := 20, online := "Nein", status := "Angesetzt", link := "L" }])
      ["Anna"] "Ja" 20 0).1 ≠ some 20)
    ∧ ((terminidee [{ datum := 18, zusagen := ["Anna"], absagen := [], unsicher := [] }]
      (verbotene_termine []) ["Anna"] "Nein" 18 0).1 ≠ some 18)
    ∧ disqualifiziert (verbotene_termine []) "Nein" 5 = (verbotene_termine []).contains 5 := by
  refine ⟨?_, ?_, ?_⟩
  · exact (blackout_und_wochentag
      [{ kampagne := "K", datum := 20, online := "Nein", status := "Angesetzt", link := "L" }]
      [{ datum := 20, zusagen := ["Anna"], absagen := [], unsicher := [] }]
      ["Anna"] "Ja" 20 0 20).1 (by decide)
  · exact (blackout_und_wochentag []
      [{ datum := 18, zusagen := ["Anna"], absagen := [], unsicher := [] }]
      ["Anna"] "Nein" 18 0 18).2.1 (by decide) rfl
  · exact (blackout_und_wochentag []
      [{ datum := 18, zusagen := ["Anna"], absagen := [], unsicher := [] }]
      ["Anna"] "Nein" 18 0 5).2.2 (by decide)

/-- Witness for C6: the missing list of a concrete partial proposal is the
sorted roster (from the parser) minus the accepted names, here sorted. -/
theorem fehlende_zusagen_korrekt_zeuge :
    List.Sorted (fun a b => strLe a b = true)
      (terminidee [{ datum := 3, zusagen := ["Anna"], absagen := [], unsicher := [] }]
        [] (namen_auslesen [['B', 'e', 'n'], ['A', 'n', 'n', 'a']]) "Ja" 3 0).2 := by
  obtain ⟨h1, _⟩ := fehlende_zusagen_korrekt [['B', 'e', 'n'], ['A', 'n', 'n', 'a']]
    [{ datum := 3, zusagen := ["Anna"], absagen := [], unsicher := [] }] [] "Ja" 3 0
  obtain ⟨st, _, _, hsort, _⟩ := h1 3 (by decide)
  exact hsort

/-- Witness for C9 with the closing tag itself as the rendered text: the
no-op test and the outcome distinction hold at a concrete page. -/
theorem posten_idempotent_zeuge :
    (posten_abgleich ("===Terminideen===alt</div>rest".toList) divEnde =
        Ausgang.keineAktualisierung ↔
      ersetzen divEnde ("===Terminideen===alt</div>rest".toList) =
        "===Terminideen===alt</div>rest".toList)
    ∧ (∀ neu, Ausgang.keineAktualisierung ≠ Ausgang.aktualisiert neu) := by
  have h := posten_idempotent [] [] ("===Terminideen===alt</div>rest".toList) divEnde 1
    (by rfl) (by decide)
  exact ⟨h.2.2.1, h.2.2.2⟩

/-- Witness for C10: a date whose table entry records no responses at all
becomes the proposal, with the whole roster reported missing. -/
theorem leerer_inhalt_fallback_zeuge :
    terminidee [{ datum := 4 }] [] ["Anna"] "Ja" 4 0 = (some 4, ["Anna"]) :=
  (leerer_inhalt_fallback [{ datum := 4 }] [] ["Anna"] "Ja" 4 0 4 { datum := 4 }
    rfl rfl rfl (by decide) (by decide) (by decide) (by decide) (by decide) (by decide)
    (by decide)).1

end Wartungsbot
